import Mathlib

/-!
A verification development for the data_analyzer repository.

The definitions below are a shallow embedding of the two core source files:

* processor.py — DataProcessor: the metadata joiner (_create_initial_df),
  the label-prefix and availability filters, and find_eligible_subjects,
  the per-worker eligibility aggregator.
* data_analyzer/scanner.py — DatasetScanner.scan_dataset: loose-file and
  archive inventory with the 7z fallback.

Records are lists of structures; pandas dataframes of the source become
lists of rows, pandas groupby becomes grouping over the sorted distinct
key list (pandas groupby sorts keys ascending by default), and Python
exceptions become Except Unit results.
-/

namespace DataAnalyzer

/-- Is the first list a prefix of the second, comparing characters. -/
def charPfx : List Char → List Char → Bool
  | [], _ => true
  | _ :: _, [] => false
  | c :: cs, d :: ds => c == d && charPfx cs ds

/-- Does the needle occur as a contiguous run inside the haystack. -/
def charSub (needle : List Char) : List Char → Bool
  | [] => needle.isEmpty
  | d :: ds => charPfx needle (d :: ds) || charSub needle ds

/-- Python substring test: needle in hay. -/
def strContains (hay needle : String) : Bool :=
  charSub needle.toList hay.toList

/-- os.path.basename for forward-slash paths: the part after the last slash. -/
def basename (p : String) : String :=
  (p.splitOn "/").getLastD p

/-- A Python value stored in a labels field: a list of strings, a plain
string (iterable, yields its characters), or some other non-iterable value. -/
inductive PyVal where
  | pyList (ls : List String)
  | pyStr (s : String)
  | pyOther
deriving DecidableEq

/-- A row of the worker metadata collection. -/
structure WorkerRec where
  video_path : String
  worker_id : Int
deriving DecidableEq

/-- A row of the label metadata collection. -/
structure LabelRec where
  video_path : String
  labels : PyVal
deriving DecidableEq

/-- A row of the merged dataframe. The filename and existsFlag fields model
the columns added later by filter_available_files; before that stage they
hold the defaults none and false. -/
structure Rec where
  video_path : String
  worker_id : Int
  labels : PyVal
  filename : Option String := none
  existsFlag : Bool := false
deriving DecidableEq

/-- pandas inner merge on video_path: for each left row in order, one output
row per matching right row, so duplicate keys produce the cross product. -/
def mergeInner (ws : List WorkerRec) (ls : List LabelRec) : List Rec :=
  ws.flatMap fun w =>
    (ls.filter fun l => l.video_path == w.video_path).map fun l =>
      { video_path := w.video_path, worker_id := w.worker_id, labels := l.labels }

/-- DataProcessor._create_initial_df: if either metadata collection is empty
the merged dataframe is set to an empty frame (after a console warning),
otherwise it is the inner merge on video_path. -/
def create_initial_df (ws : List WorkerRec) (ls : List LabelRec) : List Rec :=
  if ws.isEmpty || ls.isEmpty then [] else mergeInner ws ls

/-- The relational inner join exactly as the spec words it: one joined record
for every pair of a worker record and a label record with equal video_path,
in left-row order. Stated from the spec text for comparison with
create_initial_df. -/
def relationalJoinSpec (ws : List WorkerRec) (ls : List LabelRec) : List Rec :=
  ws.flatMap fun w =>
    (ls.filter fun l => l.video_path == w.video_path).map fun l =>
      { video_path := w.video_path, worker_id := w.worker_id, labels := l.labels }

/-- The has_prefix helper of filter_by_label_prefix: a labels value that is
not a list is excluded (returns false, never raises). -/
def labelStartsWith (p : String) (v : PyVal) : Bool :=
  match v with
  | .pyList ls => ls.any fun l => charPfx p.toList l.toList
  | _ => false

/-- DataProcessor.filter_by_label_prefix: keep rows where some label starts
with the given text. -/
def filter_by_label_prefix (p : String) (df : List Rec) : List Rec :=
  if df.isEmpty then [] else df.filter fun r => labelStartsWith p r.labels

/-- Recompute the filename and existsFlag columns of one row. -/
def markAvailability (avail : List String) (r : Rec) : Rec :=
  { r with filename := some (basename r.video_path),
           existsFlag := avail.contains (basename r.video_path) }

/-- DataProcessor.filter_available_files: derive filename and existence
columns, then keep only rows whose filename is in the available set. An
empty input is returned unchanged (early return in the source). -/
def filter_available_files (avail : List String) (df : List Rec) : List Rec :=
  if df.isEmpty then df
  else (df.map (markAvailability avail)).filter fun r => r.existsFlag

/-- has_label_match of find_eligible_subjects. An empty keyword list returns
false before labels is ever touched. Iterating a plain string yields its
characters. Iterating a non-iterable value raises TypeError, modelled as
Except.error. There is no isinstance guard in the source here. -/
def has_label_match (labels : PyVal) (keywords : List String) : Except Unit Bool :=
  if keywords.isEmpty then .ok false
  else
    match labels with
    | .pyList ls => .ok (ls.any fun l => keywords.any fun k => strContains l k)
    | .pyStr s =>
      .ok (s.toList.any fun c => keywords.any fun k => strContains (String.singleton c) k)
    | .pyOther => .error ()

/-- The boolean has_label_match yields when it does not raise (false on the
raising case, used only to state countP formulas). -/
def pyMatch (labels : PyVal) (keywords : List String) : Bool :=
  match has_label_match labels keywords with
  | .ok b => b
  | .error _ => false

/-- Element-wise effectful map that stops at the first error, the shape of a
pandas column apply whose function may raise. -/
def mapExcept {α β : Type} (f : α → Except Unit β) : List α → Except Unit (List β)
  | [] => .ok []
  | x :: xs => do
    let y ← f x
    let ys ← mapExcept f xs
    pure (y :: ys)

/-- Insert a key into a sorted list of distinct keys. -/
def insertKey (k : Int) : List Int → List Int
  | [] => [k]
  | k2 :: ks =>
    if k = k2 then k2 :: ks
    else if k < k2 then k :: k2 :: ks
    else k2 :: insertKey k ks

/-- The sorted distinct worker ids of the dataframe: the group iteration
order of pandas groupby (sort=True is the default). -/
def groupKeys (df : List Rec) : List Int :=
  df.foldl (fun acc r => insertKey r.worker_id acc) []

/-- One output dictionary of find_eligible_subjects. -/
structure SubjectSummary where
  worker_id : Int
  good_count : Nat
  bad_count : Nat
  total_videos : Nat
  good_samples : List String
  bad_samples : List String
deriving DecidableEq

/-- The pure tail of the per-group body: rows carries each record zipped
with its good and bad classification; in strict mode good means
keyword-good and not keyword-bad, the bad side always takes every
keyword-bad row; a summary is emitted iff both thresholds hold. -/
def buildSummary (mg mb : Nat) (sg : Bool) (wid : Int)
    (rows : List ((Rec × Bool) × Bool)) (total : Nat) : Option SubjectSummary :=
  let good_videos :=
    if sg then rows.filter fun t => t.1.2 && !t.2
    else rows.filter fun t => t.1.2
  let bad_videos := rows.filter fun t => t.2
  if mg ≤ good_videos.length ∧ mb ≤ bad_videos.length then
    some
      { worker_id := wid
        good_count := good_videos.length
        bad_count := bad_videos.length
        total_videos := total
        good_samples := good_videos.map fun t => t.1.1.video_path
        bad_samples := bad_videos.map fun t => t.1.1.video_path }
  else
    none

/-- The per-group body of find_eligible_subjects: classify every row against
the good keywords, then against the bad keywords, then build the summary. -/
def summarizeGroup (gK bK : List String) (mg mb : Nat) (sg : Bool) (wid : Int)
    (group : List Rec) : Except Unit (Option SubjectSummary) := do
  let isGood ← mapExcept (fun r => has_label_match r.labels gK) group
  let isBad ← mapExcept (fun r => has_label_match r.labels bK) group
  pure (buildSummary mg mb sg wid ((group.zip isGood).zip isBad) group.length)

/-- The group loop of find_eligible_subjects, over keys in groupby order,
appending the summaries of eligible groups. -/
def processGroups (gK bK : List String) (mg mb : Nat) (sg : Bool) (df : List Rec) :
    List Int → Except Unit (List SubjectSummary)
  | [] => .ok []
  | k :: ks => do
    let o ← summarizeGroup gK bK mg mb sg k (df.filter fun r => decide (r.worker_id = k))
    let rest ← processGroups gK bK mg mb sg df ks
    pure (match o with | some s => s :: rest | none => rest)

/-- Insert into a list sorted descending by total_videos, after every entry
whose total is at least as large — the placement a stable descending sort
gives each element. -/
def insertDesc (s : SubjectSummary) : List SubjectSummary → List SubjectSummary
  | [] => [s]
  | t :: ts =>
    if s.total_videos ≤ t.total_videos then t :: insertDesc s ts
    else s :: t :: ts

/-- Stable descending sort by total_videos, the semantics of Python
list.sort with a key and reverse=True (Timsort is stable and reverse does
not reorder equal keys). -/
def sortTotalDesc (l : List SubjectSummary) : List SubjectSummary :=
  l.foldl (fun acc s => insertDesc s acc) []

/-- DataProcessor.find_eligible_subjects: empty data short-circuits to an
empty list; otherwise group, summarize eligible groups, and sort the
summaries descending by total_videos. -/
def find_eligible_subjects (df : List Rec) (gK bK : List String) (mg mb : Nat)
    (sg : Bool) : Except Unit (List SubjectSummary) :=
  if df.isEmpty then .ok []
  else (processGroups gK bK mg mb sg df (groupKeys df)).map sortTotalDesc

/-- The summary, if any, the aggregator emits for one key; used to state
theorems about which groups appear in the output. -/
def groupSummary (gK bK : List String) (mg mb : Nat) (sg : Bool) (df : List Rec)
    (k : Int) : Option SubjectSummary :=
  match summarizeGroup gK bK mg mb sg k (df.filter fun r => decide (r.worker_id = k)) with
  | .ok o => o
  | .error _ => none

/-- The number of rows of a group the aggregator classifies good. -/
def groupGoodCount (gK bK : List String) (sg : Bool) (group : List Rec) : Nat :=
  if sg then group.countP fun r => pyMatch r.labels gK && !pyMatch r.labels bK
  else group.countP fun r => pyMatch r.labels gK

/-- The number of rows of a group the aggregator classifies bad. -/
def groupBadCount (bK : List String) (group : List Rec) : Nat :=
  group.countP fun r => pyMatch r.labels bK

/-- Outcome of the standard zipfile attempt on one archive: a successful
name listing, a BadZipFile or NotImplementedError (which triggers the 7z
fallback), or any other exception (warned and skipped). -/
inductive ZipAttempt where
  | ok (names : List String)
  | badZip
  | otherError
deriving DecidableEq

/-- The subprocess run of the external 7z list command. launched = false
models the executable being unavailable (subprocess.run raising); otherwise
the exit code and captured stdout lines. -/
structure FallbackRun where
  launched : Bool
  returncode : Int
  stdout : List String
deriving DecidableEq

/-- One zip archive found under the root, with the outcomes of the two read
strategies. -/
structure Archive where
  name : String
  attempt : ZipAttempt
  fallback : FallbackRun
deriving DecidableEq

/-- Parse 7z list output: keep lines containing .mp4, take the last
whitespace-delimited token, accept it only if it itself ends with .mp4, and
record its basename. -/
def sevenZipParse (lines : List String) : List String :=
  (lines.filter fun line => strContains line ".mp4").filterMap fun line =>
    match ((line.trim.split fun c => c.isWhitespace).filter fun t => !t.isEmpty).getLast? with
    | some tok => if tok.endsWith ".mp4" then some (basename tok) else none
    | none => none

/-- The basenames one archive contributes to the video set, the per-archive
body of scan_dataset: the zipfile listing on success; on BadZipFile the 7z
fallback when it launched and exited 0; nothing in every failure case. The
function is total: no failure escapes it. -/
def inventoryArchive (a : Archive) : List String :=
  match a.attempt with
  | .ok names => (names.filter fun n => n.endsWith ".mp4").map basename
  | .otherError => []
  | .badZip =>
    if a.fallback.launched then
      if a.fallback.returncode = 0 then sevenZipParse a.fallback.stdout else []
    else []

/-- The summary dictionary scan_dataset returns. -/
structure ScanResult where
  total_videos : Nat
  unpacked_videos : Nat
  zip_archives : Nat
  labels : List (String × String)
  video_files : Finset String

/-- The fixed list of known label filenames the scanner checks. -/
def label_files : List String :=
  ["fine_grained_labels.json", "feedbacks_short_clips.json",
   "feedbacks_long_range.json", "questions.json"]

/-- Known-label lookup: the first path whose basename is the label filename,
or the MISSING sentinel. -/
def labelsFound (files : List String) : List (String × String) :=
  label_files.map fun lf =>
    (lf, match (files.filter fun p => basename p == lf).head? with
         | some p => p
         | none => "MISSING")

/-- The deduplicated set of loose mp4 basenames found by rglob. -/
def looseBasenames (files : List String) : Finset String :=
  ((files.filter fun p => p.endsWith ".mp4").map basename).toFinset

/-- DatasetScanner.scan_dataset over an abstract tree: files is every file
path under the root, archives the zip archives together with their read
outcomes. The video set starts from the loose basenames and each archive
inventory is unioned in. -/
def scan_dataset (files : List String) (archives : List Archive) : ScanResult :=
  let videoFiles :=
    archives.foldl (fun acc a => acc ∪ (inventoryArchive a).toFinset) (looseBasenames files)
  { total_videos := videoFiles.card
    unpacked_videos := (files.filter fun p => p.endsWith ".mp4").length
    zip_archives := archives.length
    labels := labelsFound files
    video_files := videoFiles }

/-- Union of the per-archive basename sets, the shape in which the spec
states the union law for total_videos. -/
def archivesUnion (archives : List Archive) : Finset String :=
  (archives.map fun a => (inventoryArchive a).toFinset).foldr (· ∪ ·) ∅

/-- Demo group for the strict-good witness: one record matching only the
good keyword and one whose label matches both keyword lists. -/
def demoGroup : List Rec :=
  [{ video_path := "v1", worker_id := 7, labels := .pyList ["deep-squat"] },
   { video_path := "v2", worker_id := 7, labels := .pyList ["deep-fast-squat"] }]

/-- Demo dataframe for the sorting witness: worker 1 owns five records,
worker 2 owns nine, each worker with one good and one bad sample. -/
def demoDf : List Rec :=
  [{ video_path := "a1", worker_id := 1, labels := .pyList ["g"] },
   { video_path := "a2", worker_id := 1, labels := .pyList ["b"] },
   { video_path := "a3", worker_id := 1, labels := .pyList ["n"] },
   { video_path := "a4", worker_id := 1, labels := .pyList ["n"] },
   { video_path := "a5", worker_id := 1, labels := .pyList ["n"] },
   { video_path := "b1", worker_id := 2, labels := .pyList ["g"] },
   { video_path := "b2", worker_id := 2, labels := .pyList ["b"] },
   { video_path := "b3", worker_id := 2, labels := .pyList ["n"] },
   { video_path := "b4", worker_id := 2, labels := .pyList ["n"] },
   { video_path := "b5", worker_id := 2, labels := .pyList ["n"] },
   { video_path := "b6", worker_id := 2, labels := .pyList ["n"] },
   { video_path := "b7", worker_id := 2, labels := .pyList ["n"] },
   { video_path := "b8", worker_id := 2, labels := .pyList ["n"] },
   { video_path := "b9", worker_id := 2, labels := .pyList ["n"] }]

/-- Demo archive that fails both read strategies: the zipfile reader sees a
bad archive and the 7z executable is unavailable. -/
def demoBadArchive : Archive :=
  { name := "x.zip", attempt := .badZip, fallback := { launched := false, returncode := 1, stdout := [] } }

/-- Demo archive the zipfile reader lists successfully. -/
def demoGoodArchive : Archive :=
  { name := "y.zip", attempt := .ok ["sub/v.mp4", "w.mp4", "notes.txt"],
    fallback := { launched := true, returncode := 0, stdout := [] } }

/-- Inversion for a successful Except bind. -/
theorem bind_ok_inv {α β : Type} {x : Except Unit α} {k : α → Except Unit β} {b : β}
    (h : x >>= k = Except.ok b) : ∃ a, x = Except.ok a ∧ k a = Except.ok b := by
  cases x with
  | error e => exact Except.noConfusion h
  | ok a => exact ⟨a, rfl, h⟩

/-- Binding a success just applies the continuation. -/
theorem ok_bind {α β : Type} (a : α) (k : α → Except Unit β) :
    (Except.ok a >>= k) = k a := rfl

/-- Binding an error is that error. -/
theorem error_bind {α β : Type} (k : α → Except Unit β) :
    ((Except.error () : Except Unit α) >>= k) = Except.error () := rfl

/-- pyMatch agrees with has_label_match on every non-raising evaluation. -/
theorem pyMatch_eq_of_ok {v : PyVal} {ks : List String} {b : Bool}
    (h : has_label_match v ks = .ok b) : pyMatch v ks = b := by
  unfold pyMatch
  rw [h]

/-- On a non-iterable labels value with a nonempty keyword list,
has_label_match raises. -/
theorem has_label_match_pyOther {ks : List String} (h : ks ≠ []) :
    has_label_match .pyOther ks = .error () := by
  unfold has_label_match
  rw [if_neg]
  simp [List.isEmpty_iff, h]

/-- A successful element-wise map is the pointwise map of the value each
element evaluates to. -/
theorem mapExcept_ok {α β : Type} {f : α → Except Unit β} {g : α → β}
    (hg : ∀ x y, f x = .ok y → y = g x) :
    ∀ {l : List α} {ys : List β}, mapExcept f l = .ok ys → ys = l.map g := by
  intro l
  induction l with
  | nil =>
    intro ys h
    simp only [mapExcept] at h
    cases h
    rfl
  | cons x xs ih =>
    intro ys h
    simp only [mapExcept] at h
    obtain ⟨y, hy, h2⟩ := bind_ok_inv h
    obtain ⟨ys2, hys2, h3⟩ := bind_ok_inv h2
    cases h3
    rw [List.map_cons, ← hg x y hy, ← ih hys2]

/-- One raising element makes the whole element-wise map raise. -/
theorem mapExcept_error_of_mem {α β : Type} {f : α → Except Unit β} :
    ∀ {l : List α} {x : α}, x ∈ l → f x = .error () → mapExcept f l = .error () := by
  intro l
  induction l with
  | nil =>
    intro x hx
    cases hx
  | cons a as ih =>
    intro x hx hfx
    simp only [mapExcept]
    cases hfa : f a with
    | error e =>
      cases e
      exact error_bind _
    | ok y =>
      rcases List.mem_cons.mp hx with rfl | hmem
      · rw [hfa] at hfx
        cases hfx
      · rw [ok_bind, ih hmem hfx, error_bind]

/-- Zipping a list with its own map pairs each element with its image. -/
theorem zip_self_map {α β : Type} (f : α → β) (l : List α) :
    l.zip (l.map f) = l.map fun x => (x, f x) := by
  induction l with
  | nil => rfl
  | cons x xs ih => simp [ih]

/-- What buildSummary emits over classified rows given as a pointwise map of
the group: field-by-field characterization of a produced summary. -/
theorem buildSummary_map_spec {mg mb : Nat} {sg : Bool} {wid : Int}
    {group : List Rec} {g1 g2 : Rec → Bool} {s : SubjectSummary}
    (h : buildSummary mg mb sg wid (group.map fun r => ((r, g1 r), g2 r)) group.length
      = some s) :
    s.worker_id = wid ∧
    s.total_videos = group.length ∧
    s.good_count = (if sg then group.countP fun r => g1 r && !g2 r else group.countP g1) ∧
    s.bad_count = group.countP g2 ∧
    s.good_samples.length = s.good_count ∧
    s.bad_samples.length = s.bad_count ∧
    mg ≤ s.good_count ∧ mb ≤ s.bad_count := by
  unfold buildSummary at h
  cases sg with
  | false =>
    simp only [Bool.false_eq_true, if_false, List.filter_map] at h ⊢
    split at h
    case isTrue hc =>
      cases h
      refine ⟨rfl, rfl, ?_, ?_, by simp, by simp, hc.1, hc.2⟩
      · rw [List.countP_eq_length_filter]
        simp only [List.length_map]
        rfl
      · rw [List.countP_eq_length_filter]
        simp only [List.length_map]
        rfl
    case isFalse hc => cases h
  | true =>
    simp only [if_true, List.filter_map] at h ⊢
    split at h
    case isTrue hc =>
      cases h
      refine ⟨rfl, rfl, ?_, ?_, by simp, by simp, hc.1, hc.2⟩
      · rw [List.countP_eq_length_filter]
        simp only [List.length_map]
        rfl
      · rw [List.countP_eq_length_filter]
        simp only [List.length_map]
        rfl
    case isFalse hc => cases h

/-- Field-by-field characterization of a summary find_eligible_subjects
emits for a group: counts are the strict or lenient keyword counts, sample
lists have matching lengths, and both thresholds hold. -/
theorem summarizeGroup_ok_some {gK bK : List String} {mg mb : Nat} {sg : Bool}
    {wid : Int} {group : List Rec} {s : SubjectSummary}
    (h : summarizeGroup gK bK mg mb sg wid group = .ok (some s)) :
    s.worker_id = wid ∧
    s.total_videos = group.length ∧
    s.good_count = groupGoodCount gK bK sg group ∧
    s.bad_count = groupBadCount bK group ∧
    s.good_samples.length = s.good_count ∧
    s.bad_samples.length = s.bad_count ∧
    mg ≤ s.good_count ∧ mb ≤ s.bad_count := by
  simp only [summarizeGroup] at h
  obtain ⟨isGood, hG, h2⟩ := bind_ok_inv h
  obtain ⟨isBad, hB, h3⟩ := bind_ok_inv h2
  have hG2 : isGood = group.map fun r => pyMatch r.labels gK :=
    mapExcept_ok (fun x y hy => (pyMatch_eq_of_ok hy).symm) hG
  have hB2 : isBad = group.map fun r => pyMatch r.labels bK :=
    mapExcept_ok (fun x y hy => (pyMatch_eq_of_ok hy).symm) hB
  subst hG2 hB2
  rw [zip_self_map, List.zip_map'] at h3
  replace h3 := Except.ok.inj h3
  have hs := buildSummary_map_spec h3
  simpa [groupGoodCount, groupBadCount] using hs

/-- Disjoint boolean predicates jointly count at most the length. -/
theorem countP_add_le_length {α : Type} {p q : α → Bool}
    (hpq : ∀ x, ¬(p x = true ∧ q x = true)) :
    ∀ l : List α, l.countP p + l.countP q ≤ l.length := by
  intro l
  induction l with
  | nil => simp
  | cons a as ih =>
    rw [List.countP_cons, List.countP_cons, List.length_cons]
    by_cases hp : p a = true <;> by_cases hq : q a = true
    · exact absurd ⟨hp, hq⟩ (hpq a)
    all_goals (simp [hp, hq]; omega)

/-- A successful group loop returns exactly the summaries groupSummary
extracts, key by key, in order. -/
theorem processGroups_ok {gK bK : List String} {mg mb : Nat} {sg : Bool} {df : List Rec} :
    ∀ {keys : List Int} {l : List SubjectSummary},
      processGroups gK bK mg mb sg df keys = .ok l →
      l = keys.filterMap (groupSummary gK bK mg mb sg df) := by
  intro keys
  induction keys with
  | nil =>
    intro l h
    simp only [processGroups] at h
    cases h
    rfl
  | cons k ks ih =>
    intro l h
    simp only [processGroups] at h
    obtain ⟨o, ho, h2⟩ := bind_ok_inv h
    obtain ⟨rest, hrest, h3⟩ := bind_ok_inv h2
    cases h3
    rw [List.filterMap_cons]
    have hgs : groupSummary gK bK mg mb sg df k = o := by
      unfold groupSummary
      rw [ho]
    rw [hgs, ← ih hrest]
    cases o <;> rfl

/-- A successful group loop means every key's group summarized without
raising. -/
theorem processGroups_ok_forall {gK bK : List String} {mg mb : Nat} {sg : Bool}
    {df : List Rec} :
    ∀ {keys : List Int} {l : List SubjectSummary},
      processGroups gK bK mg mb sg df keys = .ok l →
      ∀ k ∈ keys, ∃ o, summarizeGroup gK bK mg mb sg k
        (df.filter fun r => decide (r.worker_id = k)) = .ok o := by
  intro keys
  induction keys with
  | nil =>
    intro l h k hk
    cases hk
  | cons k2 ks ih =>
    intro l h k hk
    simp only [processGroups] at h
    obtain ⟨o, ho, h2⟩ := bind_ok_inv h
    obtain ⟨rest, hrest, h3⟩ := bind_ok_inv h2
    rcases List.mem_cons.mp hk with rfl | hmem
    · exact ⟨o, ho⟩
    · exact ih hrest k hmem

/-- One raising group makes the whole group loop raise. -/
theorem processGroups_error_of_mem {gK bK : List String} {mg mb : Nat} {sg : Bool}
    {df : List Rec} :
    ∀ {keys : List Int} {k : Int}, k ∈ keys →
      summarizeGroup gK bK mg mb sg k (df.filter fun r => decide (r.worker_id = k))
        = .error () →
      processGroups gK bK mg mb sg df keys = .error () := by
  intro keys
  induction keys with
  | nil =>
    intro k hk
    cases hk
  | cons k2 ks ih =>
    intro k hk hs
    simp only [processGroups]
    cases hk2 : summarizeGroup gK bK mg mb sg k2
        (df.filter fun r => decide (r.worker_id = k2)) with
    | error e =>
      cases e
      exact error_bind _
    | ok o =>
      rcases List.mem_cons.mp hk with rfl | hmem
      · rw [hk2] at hs
        cases hs
      · rw [ok_bind, ih hmem hs, error_bind]

/-- Membership in an inserted key list. -/
theorem mem_insertKey {k x : Int} : ∀ {l : List Int}, x ∈ insertKey k l ↔ x = k ∨ x ∈ l := by
  intro l
  induction l with
  | nil => simp [insertKey]
  | cons k2 ks ih =>
    simp only [insertKey]
    split_ifs with h1 h2
    · subst h1
      simp only [List.mem_cons]
      tauto
    · simp only [List.mem_cons]
    · simp only [List.mem_cons, ih]
      tauto

/-- Inserting keeps a strictly ascending key list strictly ascending. -/
theorem insertKey_sorted {k : Int} :
    ∀ {l : List Int}, l.Pairwise (· < ·) → (insertKey k l).Pairwise (· < ·) := by
  intro l
  induction l with
  | nil =>
    intro
    simp [insertKey]
  | cons k2 ks ih =>
    intro hs
    rw [List.pairwise_cons] at hs
    simp only [insertKey]
    split_ifs with h1 h2
    · exact List.pairwise_cons.mpr ⟨hs.1, hs.2⟩
    · refine List.pairwise_cons.mpr ⟨?_, List.pairwise_cons.mpr ⟨hs.1, hs.2⟩⟩
      intro x hx
      rcases List.mem_cons.mp hx with rfl | hmem
      · exact h2
      · exact lt_trans h2 (hs.1 x hmem)
    · refine List.pairwise_cons.mpr ⟨?_, ih hs.2⟩
      intro x hx
      rcases mem_insertKey.mp hx with rfl | hmem
      · omega
      · exact hs.1 x hmem

/-- The group key list is strictly ascending. -/
theorem groupKeys_sorted (df : List Rec) : (groupKeys df).Pairwise (· < ·) := by
  unfold groupKeys
  have h : ∀ (l : List Rec) (acc : List Int), acc.Pairwise (· < ·) →
      (l.foldl (fun acc r => insertKey r.worker_id acc) acc).Pairwise (· < ·) := by
    intro l
    induction l with
    | nil => intro acc h; exact h
    | cons r rs ih =>
      intro acc h
      exact ih _ (insertKey_sorted h)
  exact h df [] (by simp)

/-- The group key list has no duplicate keys. -/
theorem groupKeys_nodup (df : List Rec) : (groupKeys df).Nodup :=
  (groupKeys_sorted df).imp ne_of_lt

/-- A key is a group key exactly when some record carries it. -/
theorem mem_groupKeys {df : List Rec} {k : Int} :
    k ∈ groupKeys df ↔ ∃ r ∈ df, r.worker_id = k := by
  unfold groupKeys
  have h : ∀ (l : List Rec) (acc : List Int),
      (k ∈ l.foldl (fun acc r => insertKey r.worker_id acc) acc ↔
        k ∈ acc ∨ ∃ r ∈ l, r.worker_id = k) := by
    intro l
    induction l with
    | nil => simp
    | cons r rs ih =>
      intro acc
      rw [List.foldl_cons, ih, mem_insertKey]
      simp only [List.mem_cons]
      constructor
      · rintro ((rfl | h) | ⟨r2, h2, h3⟩)
        · exact Or.inr ⟨r, Or.inl rfl, rfl⟩
        · exact Or.inl h
        · exact Or.inr ⟨r2, Or.inr h2, h3⟩
      · rintro (h | ⟨r2, (rfl | h2), h3⟩)
        · exact Or.inl (Or.inr h)
        · exact Or.inl (Or.inl h3.symm)
        · exact Or.inr ⟨r2, h2, h3⟩
  rw [h df []]
  simp

/-- Inserting is a permutation of consing. -/
theorem insertDesc_perm (s : SubjectSummary) :
    ∀ l : List SubjectSummary, (insertDesc s l).Perm (s :: l) := by
  intro l
  induction l with
  | nil => exact List.Perm.refl _
  | cons t ts ih =>
    simp only [insertDesc]
    split_ifs with h
    · exact (ih.cons t).trans (List.Perm.swap s t ts)
    · exact List.Perm.refl _

/-- Insertion keeps a descending-by-total list descending. -/
theorem insertDesc_sorted {s : SubjectSummary} :
    ∀ {l : List SubjectSummary},
      l.Pairwise (fun a b => b.total_videos ≤ a.total_videos) →
      (insertDesc s l).Pairwise (fun a b => b.total_videos ≤ a.total_videos) := by
  intro l
  induction l with
  | nil =>
    intro
    simp [insertDesc]
  | cons t ts ih =>
    intro hs
    rw [List.pairwise_cons] at hs
    simp only [insertDesc]
    split_ifs with h
    · refine List.pairwise_cons.mpr ⟨?_, ih hs.2⟩
      intro x hx
      rcases List.mem_cons.mp ((insertDesc_perm s ts).mem_iff.mp hx) with rfl | hmem
      · exact h
      · exact hs.1 x hmem
    · refine List.pairwise_cons.mpr ⟨?_, List.pairwise_cons.mpr ⟨hs.1, hs.2⟩⟩
      intro x hx
      rcases List.mem_cons.mp hx with rfl | hmem
      · omega
      · exact le_trans (hs.1 x hmem) (by omega)

/-- Insertion appends the new element after every already-present entry of
its total value, provided the list is descending. -/
theorem filter_insertDesc {n : Nat} {s : SubjectSummary} :
    ∀ {l : List SubjectSummary},
      l.Pairwise (fun a b => b.total_videos ≤ a.total_videos) →
      (insertDesc s l).filter (fun x => x.total_videos == n) =
        (l.filter fun x => x.total_videos == n) ++
          (if s.total_videos == n then [s] else []) := by
  intro l
  induction l with
  | nil =>
    intro
    by_cases h : (s.total_videos == n) = true <;> simp [insertDesc, h]
  | cons t ts ih =>
    intro hs
    rw [List.pairwise_cons] at hs
    simp only [insertDesc]
    by_cases h : s.total_videos ≤ t.total_videos
    · rw [if_pos h, List.filter_cons, List.filter_cons, ih hs.2]
      by_cases ht : (t.total_videos == n) = true <;> simp [ht]
    · rw [if_neg h]
      by_cases hsn : (s.total_videos == n) = true
      · have hn : s.total_videos = n := by simpa using hsn
        have hnil : (t :: ts).filter (fun x => x.total_videos == n) = [] := by
          rw [List.filter_eq_nil_iff]
          intro x hx
          have hxle : x.total_videos ≤ t.total_videos := by
            rcases List.mem_cons.mp hx with rfl | hmem
            · exact le_refl _
            · exact hs.1 x hmem
          simp only [beq_iff_eq]
          omega
        simp [List.filter_cons, hsn, hnil]
      · simp [List.filter_cons, hsn]

/-- The stable sort permutes its input. -/
theorem sortTotalDesc_perm (l : List SubjectSummary) : (sortTotalDesc l).Perm l := by
  unfold sortTotalDesc
  suffices h : ∀ (l acc : List SubjectSummary),
      (l.foldl (fun acc s => insertDesc s acc) acc).Perm (acc ++ l) by
    simpa using h l []
  intro l
  induction l with
  | nil =>
    intro acc
    simp
  | cons x xs ih =>
    intro acc
    rw [List.foldl_cons]
    refine ((ih (insertDesc x acc)).trans ?_)
    refine (List.Perm.append_right xs (insertDesc_perm x acc)).trans ?_
    exact List.perm_middle.symm

/-- The stable sort output is descending by total_videos. -/
theorem sortTotalDesc_sorted (l : List SubjectSummary) :
    (sortTotalDesc l).Pairwise (fun a b => b.total_videos ≤ a.total_videos) := by
  unfold sortTotalDesc
  suffices h : ∀ (l acc : List SubjectSummary),
      acc.Pairwise (fun a b => b.total_videos ≤ a.total_videos) →
      (l.foldl (fun acc s => insertDesc s acc) acc).Pairwise
        (fun a b => b.total_videos ≤ a.total_videos) by
    exact h l [] (by simp)
  intro l
  induction l with
  | nil =>
    intro acc h
    exact h
  | cons x xs ih =>
    intro acc h
    exact ih _ (insertDesc_sorted h)

/-- Stability: within each total value the sort preserves the input order. -/
theorem sortTotalDesc_filter (n : Nat) (l : List SubjectSummary) :
    (sortTotalDesc l).filter (fun x => x.total_videos == n) =
      l.filter fun x => x.total_videos == n := by
  unfold sortTotalDesc
  suffices h : ∀ (l acc : List SubjectSummary),
      acc.Pairwise (fun a b => b.total_videos ≤ a.total_videos) →
      (l.foldl (fun acc s => insertDesc s acc) acc).filter (fun x => x.total_videos == n) =
        (acc.filter fun x => x.total_videos == n) ++
          (l.filter fun x => x.total_videos == n) by
    simpa using h l [] (by simp)
  intro l
  induction l with
  | nil =>
    intro acc h
    simp
  | cons x xs ih =>
    intro acc h
    rw [List.foldl_cons, ih _ (insertDesc_sorted h), filter_insertDesc h, List.filter_cons]
    by_cases hx : (x.total_videos == n) = true <;> simp [hx]

/-- A map whose function fixes every element is the identity. -/
theorem map_id_of_forall {α : Type} {f : α → α} :
    ∀ {l : List α}, (∀ x ∈ l, f x = x) → l.map f = l := by
  intro l
  induction l with
  | nil =>
    intro
    rfl
  | cons x xs ih =>
    intro h
    rw [List.map_cons, h x (List.mem_cons_self x xs),
      ih fun y hy => h y (List.mem_cons_of_mem x hy)]

/-- Recomputing availability columns is stable. -/
theorem mark_idem (avail : List String) (r : Rec) :
    markAvailability avail (markAvailability avail r) = markAvailability avail r := rfl

/-- Peeling one archive off the union of archive sets. -/
theorem archivesUnion_cons (a : Archive) (as : List Archive) :
    archivesUnion (a :: as) = (inventoryArchive a).toFinset ∪ archivesUnion as := by
  simp [archivesUnion]

/-- Folding set union from an accumulator equals the accumulator joined with
the union of the folded sets. -/
theorem foldl_union_eq :
    ∀ (archives : List Archive) (acc : Finset String),
      archives.foldl (fun x a => x ∪ (inventoryArchive a).toFinset) acc =
        acc ∪ archivesUnion archives := by
  intro archives
  induction archives with
  | nil =>
    intro acc
    simp [archivesUnion]
  | cons a as ih =>
    intro acc
    rw [List.foldl_cons, ih, archivesUnion_cons, Finset.union_assoc]

/-- Membership in the union of the archive sets. -/
theorem mem_archivesUnion {x : String} :
    ∀ {archives : List Archive},
      x ∈ archivesUnion archives ↔ ∃ a ∈ archives, x ∈ inventoryArchive a := by
  intro archives
  induction archives with
  | nil => simp [archivesUnion]
  | cons a as ih =>
    rw [archivesUnion_cons]
    simp only [Finset.mem_union, List.mem_toFinset, ih, List.mem_cons]
    constructor
    · rintro (h | ⟨b, hb, hxb⟩)
      · exact ⟨a, Or.inl rfl, h⟩
      · exact ⟨b, Or.inr hb, hxb⟩
    · rintro ⟨b, (rfl | hb), hxb⟩
      · exact Or.inl hxb
      · exact Or.inr ⟨b, hb, hxb⟩

/-- The merge body and the spec-side relational join are the same function. -/
theorem mergeInner_eq_relationalJoinSpec (ws : List WorkerRec) (ls : List LabelRec) :
    mergeInner ws ls = relationalJoinSpec ws ls := rfl

/-- Merging against no label rows yields nothing. -/
theorem mergeInner_nil_right : ∀ ws : List WorkerRec, mergeInner ws [] = [] := by
  intro ws
  induction ws with
  | nil => rfl
  | cons w rest ih =>
    unfold mergeInner at ih ⊢
    rw [List.flatMap_cons, ih]
    rfl

/-- The merge length is the sum over left rows of matching right rows. -/
theorem length_mergeInner (ws : List WorkerRec) (ls : List LabelRec) :
    (mergeInner ws ls).length =
      (ws.map fun w => ls.countP fun l => l.video_path == w.video_path).sum := by
  unfold mergeInner
  rw [List.length_flatMap]
  have hfun : (List.length ∘ fun w : WorkerRec =>
      (ls.filter fun l => l.video_path == w.video_path).map fun l =>
        ({ video_path := w.video_path, worker_id := w.worker_id, labels := l.labels } : Rec)) =
      fun w : WorkerRec => ls.countP fun l => l.video_path == w.video_path := by
    funext w
    simp [Function.comp, List.countP_eq_length_filter]
  rw [hfun]

/-- Every matching pair of source rows contributes its joined record. -/
theorem mem_mergeInner_of {ws : List WorkerRec} {ls : List LabelRec}
    {w : WorkerRec} {l : LabelRec} (hw : w ∈ ws) (hl : l ∈ ls)
    (hp : w.video_path = l.video_path) :
    ({ video_path := w.video_path, worker_id := w.worker_id, labels := l.labels } : Rec)
      ∈ mergeInner ws ls := by
  unfold mergeInner
  rw [List.mem_flatMap]
  exact ⟨w, hw, List.mem_map.mpr ⟨l, List.mem_filter.mpr ⟨hl, by simp [hp]⟩, rfl⟩⟩

/-- Every joined record has a worker-side and a label-side source row with
its video_path. -/
theorem mem_mergeInner_sources {ws : List WorkerRec} {ls : List LabelRec} {j : Rec}
    (hj : j ∈ mergeInner ws ls) :
    (∃ w ∈ ws, w.video_path = j.video_path) ∧ ∃ l ∈ ls, l.video_path = j.video_path := by
  unfold mergeInner at hj
  rw [List.mem_flatMap] at hj
  obtain ⟨w, hw, hj2⟩ := hj
  rw [List.mem_map] at hj2
  obtain ⟨l, hl, rfl⟩ := hj2
  rw [List.mem_filter] at hl
  have hb : l.video_path = w.video_path := by simpa using hl.2
  exact ⟨⟨w, hw, rfl⟩, ⟨l, hl.1, hb⟩⟩

/-- Rows surviving the label-prefix filter carry list-valued labels. -/
theorem mem_filter_by_label_prefix {p : String} {df : List Rec} {r : Rec}
    (h : r ∈ filter_by_label_prefix p df) : ∃ ls, r.labels = PyVal.pyList ls := by
  unfold filter_by_label_prefix at h
  split at h
  · cases h
  · have hsw := List.of_mem_filter h
    cases hl : r.labels with
    | pyList ls => exact ⟨ls, rfl⟩
    | pyStr s =>
      rw [hl] at hsw
      simp [labelStartsWith] at hsw
    | pyOther =>
      rw [hl] at hsw
      simp [labelStartsWith] at hsw

/-- C1: with strict_good true the aggregator counts a record toward
good_count exactly when some good keyword is a substring of one of its
labels and no bad keyword is a substring of any of its labels, while
bad_count counts every keyword-bad record regardless of good status; a
record matching both lists is therefore excluded from the good side but
still counted on the bad side. -/
theorem claim_C1_strict_good {gK bK : List String} {mg mb : Nat} {wid : Int}
    {group : List Rec} {s : SubjectSummary}
    (h : summarizeGroup gK bK mg mb true wid group = .ok (some s)) :
    s.good_count = group.countP (fun r => pyMatch r.labels gK && !pyMatch r.labels bK) ∧
    s.bad_count = group.countP fun r => pyMatch r.labels bK := by
  have hs := summarizeGroup_ok_some h
  refine ⟨?_, ?_⟩
  · rw [hs.2.2.1]
    simp [groupGoodCount]
  · rw [hs.2.2.2.1]
    rfl

/-- C1 witness: the spec's deep/fast scenario at worker 7; the second record
matches both keyword lists, is excluded from the good side, and is counted
on the bad side. -/
theorem claim_C1_strict_good_witness :
    summarizeGroup ["deep"] ["fast"] 1 1 true 7 demoGroup =
      .ok (some ⟨7, 1, 1, 2, ["v1"], ["v2"]⟩) ∧
    (1 : Nat) =
      demoGroup.countP (fun r => pyMatch r.labels ["deep"] && !pyMatch r.labels ["fast"]) ∧
    (1 : Nat) = demoGroup.countP fun r => pyMatch r.labels ["fast"] := by
  have h := @claim_C1_strict_good ["deep"] ["fast"] 1 1 7 demoGroup
    ⟨7, 1, 1, 2, ["v1"], ["v2"]⟩ rfl
  exact ⟨rfl, h.1, h.2⟩

/-- C2 counterexample: nonempty worker and label collections whose keys do
not overlap produce the very same empty join value as empty inputs, so the
joiner surfaces no distinguishable no-input condition to callers: the only
signal in the source is a console print. -/
theorem claim_C2_counterexample :
    ([{ video_path := "a", worker_id := 1 }] : List WorkerRec) ≠ [] ∧
    ([{ video_path := "b", labels := .pyList [] }] : List LabelRec) ≠ [] ∧
    create_initial_df [{ video_path := "a", worker_id := 1 }]
        [{ video_path := "b", labels := .pyList [] }] =
      create_initial_df [] [] := by
  refine ⟨by simp, by simp, rfl⟩

/-- C2 amended: if either input collection is empty the join produces an
empty result; the code only prints a console warning and returns the same
empty collection a disjoint-key join returns, exposing no programmatic
no-input signal. -/
theorem claim_C2_empty_join {ws : List WorkerRec} {ls : List LabelRec}
    (h : ws = [] ∨ ls = []) : create_initial_df ws ls = [] := by
  unfold create_initial_df
  rcases h with rfl | rfl
  · simp
  · simp

/-- C2 witness: the empty-worker side of the amended claim at a concrete
label collection. -/
theorem claim_C2_empty_join_witness :
    create_initial_df [] [{ video_path := "b", labels := .pyList [] }] = [] :=
  claim_C2_empty_join (Or.inl rfl)

/-- C3: the joiner is exactly the relational inner join on string equality
of video_path: the empty-input guard never changes the value, the length is
the number of matching row pairs (duplicate keys give the cross product),
every matching pair contributes its joined record, and every joined record
has a source row in both collections, so one-source records are dropped. -/
theorem claim_C3_inner_join (ws : List WorkerRec) (ls : List LabelRec) :
    create_initial_df ws ls = relationalJoinSpec ws ls ∧
    (create_initial_df ws ls).length =
      (ws.map fun w => ls.countP fun l => l.video_path == w.video_path).sum ∧
    (∀ w ∈ ws, ∀ l ∈ ls, w.video_path = l.video_path →
      ({ video_path := w.video_path, worker_id := w.worker_id, labels := l.labels } : Rec)
        ∈ create_initial_df ws ls) ∧
    ∀ j ∈ create_initial_df ws ls,
      (∃ w ∈ ws, w.video_path = j.video_path) ∧ ∃ l ∈ ls, l.video_path = j.video_path := by
  have heq : create_initial_df ws ls = mergeInner ws ls := by
    unfold create_initial_df
    by_cases hw : ws.isEmpty = true
    · rw [if_pos (by simp [hw])]
      have hnil : ws = [] := List.isEmpty_iff.mp hw
      subst hnil
      rfl
    · by_cases hl : ls.isEmpty = true
      · rw [if_pos (by simp [hl])]
        have hnil : ls = [] := List.isEmpty_iff.mp hl
        subst hnil
        exact (mergeInner_nil_right ws).symm
      · rw [if_neg (by simp [hw, hl])]
  refine ⟨heq.trans (mergeInner_eq_relationalJoinSpec ws ls), ?_, ?_, ?_⟩
  · rw [heq]
    exact length_mergeInner ws ls
  · intro w hw l hl hp
    rw [heq]
    exact mem_mergeInner_of hw hl hp
  · intro j hj
    rw [heq] at hj
    exact mem_mergeInner_sources hj

/-- C3 witness: a duplicated worker-side key joined against one label row
produces both joined records and the cross-product length two. -/
theorem claim_C3_inner_join_witness :
    ({ video_path := "a", worker_id := 1, labels := PyVal.pyList ["x"] } : Rec)
      ∈ create_initial_df
        [{ video_path := "a", worker_id := 1 }, { video_path := "a", worker_id := 2 }]
        [{ video_path := "a", labels := .pyList ["x"] }] ∧
    (create_initial_df
        [{ video_path := "a", worker_id := 1 }, { video_path := "a", worker_id := 2 }]
        [{ video_path := "a", labels := .pyList ["x"] }]).length = 2 := by
  have h := claim_C3_inner_join
    [{ video_path := "a", worker_id := 1 }, { video_path := "a", worker_id := 2 }]
    [{ video_path := "a", labels := .pyList ["x"] }]
  refine ⟨?_, ?_⟩
  · exact h.2.2.1 { video_path := "a", worker_id := 1 } (List.mem_cons_self _ _)
      { video_path := "a", labels := .pyList ["x"] } (List.mem_cons_self _ _) rfl
  · rw [h.2.1]
    rfl

/-- C8: the existence filter is idempotent: applied to its own output it
returns that output unchanged, because each surviving row's recomputed
filename is unchanged and still a member of the available set. -/
theorem claim_C8_exists_filter_idempotent :
    ∀ (avail : List String) (df : List Rec),
      filter_available_files avail (filter_available_files avail df) =
        filter_available_files avail df := by
  intro avail df
  by_cases hdf : df.isEmpty = true
  · have h1 : filter_available_files avail df = df := by
      unfold filter_available_files
      rw [if_pos hdf]
    rw [h1, h1]
  · have h1 : filter_available_files avail df =
        (df.map (markAvailability avail)).filter fun r => r.existsFlag := by
      unfold filter_available_files
      rw [if_neg hdf]
    rw [h1]
    set out := (df.map (markAvailability avail)).filter fun r => r.existsFlag with hout
    by_cases ho : out.isEmpty = true
    · unfold filter_available_files
      rw [if_pos ho]
    · unfold filter_available_files
      rw [if_neg ho]
      have hmap : out.map (markAvailability avail) = out := by
        apply map_id_of_forall
        intro x hx
        rw [hout] at hx
        have hx2 := List.mem_of_mem_filter hx
        obtain ⟨r, hr, rfl⟩ := List.mem_map.mp hx2
        exact mark_idem avail r
      rw [hmap]
      apply List.filter_eq_self.mpr
      intro a ha
      rw [hout] at ha
      exact List.of_mem_filter ha

/-- C4: total_videos is the cardinality of the union of the loose-file
basename set and the per-archive basename sets — not their sum — and the
video set holds exactly the basenames found loose or inside some archive,
so a name present both loose and in an archive is counted exactly once. -/
theorem claim_C4_total_union (files : List String) (archives : List Archive) :
    (scan_dataset files archives).total_videos =
      (looseBasenames files ∪ archivesUnion archives).card ∧
    ∀ x, x ∈ (scan_dataset files archives).video_files ↔
      (x ∈ looseBasenames files ∨ ∃ a ∈ archives, x ∈ inventoryArchive a) := by
  constructor
  · show (archives.foldl (fun acc a => acc ∪ (inventoryArchive a).toFinset)
      (looseBasenames files)).card = (looseBasenames files ∪ archivesUnion archives).card
    rw [foldl_union_eq]
  · intro x
    show x ∈ archives.foldl (fun acc a => acc ∪ (inventoryArchive a).toFinset)
      (looseBasenames files) ↔ _
    rw [foldl_union_eq, Finset.mem_union, mem_archivesUnion]

/-- C5: an archive failing both read paths — the zipfile reader sees a bad
archive and the 7z fallback is unavailable or exits nonzero — contributes
zero entries; the inventory function is total so nothing is raised, and the
scan result is the one obtained without that archive except that the
archive is still counted among the zip archives. -/
theorem claim_C5_failed_archive {a : Archive}
    (hbad : a.attempt = .badZip)
    (hfail : a.fallback.launched = false ∨ ¬a.fallback.returncode = 0) :
    inventoryArchive a = [] ∧
    ∀ (files : List String) (pre post : List Archive),
      (scan_dataset files (pre ++ a :: post)).video_files =
        (scan_dataset files (pre ++ post)).video_files ∧
      (scan_dataset files (pre ++ a :: post)).total_videos =
        (scan_dataset files (pre ++ post)).total_videos ∧
      (scan_dataset files (pre ++ a :: post)).unpacked_videos =
        (scan_dataset files (pre ++ post)).unpacked_videos ∧
      (scan_dataset files (pre ++ a :: post)).zip_archives =
        (scan_dataset files (pre ++ post)).zip_archives + 1 ∧
      (scan_dataset files (pre ++ a :: post)).labels =
        (scan_dataset files (pre ++ post)).labels := by
  have hinv : inventoryArchive a = [] := by
    rcases hfail with h | h
    · simp [inventoryArchive, hbad, h]
    · simp [inventoryArchive, hbad, h]
  refine ⟨hinv, ?_⟩
  intro files pre post
  have hvf : ∀ init : Finset String,
      (pre ++ a :: post).foldl (fun x ar => x ∪ (inventoryArchive ar).toFinset) init =
        (pre ++ post).foldl (fun x ar => x ∪ (inventoryArchive ar).toFinset) init := by
    intro init
    rw [List.foldl_append, List.foldl_append, List.foldl_cons, hinv]
    simp
  refine ⟨?_, ?_, rfl, ?_, rfl⟩
  · show (pre ++ a :: post).foldl (fun x ar => x ∪ (inventoryArchive ar).toFinset)
      (looseBasenames files) = _
    exact hvf _
  · show ((pre ++ a :: post).foldl (fun x ar => x ∪ (inventoryArchive ar).toFinset)
      (looseBasenames files)).card = _
    rw [hvf]
    rfl
  · show (pre ++ a :: post).length = (pre ++ post).length + 1
    simp [List.length_append]
    omega

/-- C5 witness: the demo bad archive contributes nothing and a scan run
containing it alongside a readable archive produces the same video set as
the scan without it. -/
theorem claim_C5_failed_archive_witness :
    inventoryArchive demoBadArchive = [] ∧
    (scan_dataset ["root/v.mp4"] ([] ++ demoBadArchive :: [demoGoodArchive])).video_files =
      (scan_dataset ["root/v.mp4"] ([] ++ [demoGoodArchive])).video_files := by
  have h := @claim_C5_failed_archive demoBadArchive rfl (Or.inl rfl)
  exact ⟨h.1, (h.2 ["root/v.mp4"] [] [demoGoodArchive]).1⟩

/-- A successful per-group run produces exactly the buildSummary value of
the pointwise classification of the group. -/
theorem summarizeGroup_ok_shape {gK bK : List String} {mg mb : Nat} {sg : Bool}
    {wid : Int} {group : List Rec} {o : Option SubjectSummary}
    (h : summarizeGroup gK bK mg mb sg wid group = .ok o) :
    o = buildSummary mg mb sg wid
      (group.map fun r => ((r, pyMatch r.labels gK), pyMatch r.labels bK)) group.length := by
  simp only [summarizeGroup] at h
  obtain ⟨isGood, hG, h2⟩ := bind_ok_inv h
  obtain ⟨isBad, hB, h3⟩ := bind_ok_inv h2
  have hG2 : isGood = group.map fun r => pyMatch r.labels gK :=
    mapExcept_ok (fun x y hy => (pyMatch_eq_of_ok hy).symm) hG
  have hB2 : isBad = group.map fun r => pyMatch r.labels bK :=
    mapExcept_ok (fun x y hy => (pyMatch_eq_of_ok hy).symm) hB
  subst hG2 hB2
  rw [zip_self_map, List.zip_map'] at h3
  exact (Except.ok.inj h3).symm

/-- buildSummary over a classified group emits a summary exactly when both
count thresholds hold. -/
theorem buildSummary_map_isSome {mg mb : Nat} {sg : Bool} {wid : Int}
    {group : List Rec} {g1 g2 : Rec → Bool} :
    (buildSummary mg mb sg wid (group.map fun r => ((r, g1 r), g2 r)) group.length).isSome
      = true ↔
    (mg ≤ (if sg then group.countP fun r => g1 r && !g2 r else group.countP g1) ∧
      mb ≤ group.countP g2) := by
  have hgood_true :
      ((group.map fun r => ((r, g1 r), g2 r)).filter fun t => t.1.2 && !t.2).length
        = group.countP fun r => g1 r && !g2 r := by
    rw [List.filter_map, List.length_map, List.countP_eq_length_filter]
    rfl
  have hgood_false :
      ((group.map fun r => ((r, g1 r), g2 r)).filter fun t => t.1.2).length
        = group.countP g1 := by
    rw [List.filter_map, List.length_map, List.countP_eq_length_filter]
    rfl
  have hbad : ((group.map fun r => ((r, g1 r), g2 r)).filter fun t => t.2).length
      = group.countP g2 := by
    rw [List.filter_map, List.length_map, List.countP_eq_length_filter]
    rfl
  simp only [buildSummary]
  cases sg
  · simp only [Bool.false_eq_true, if_false]
    rw [hgood_false, hbad]
    split_ifs with hc
    · simp [hc]
    · simp [hc]
  · simp only [if_true]
    rw [hgood_true, hbad]
    split_ifs with hc
    · simp [hc]
    · simp [hc]

/-- A group that summarizes without raising emits a summary exactly when
its keyword-good and keyword-bad counts reach the thresholds. -/
theorem summarizeGroup_isSome_iff {gK bK : List String} {mg mb : Nat} {sg : Bool}
    {wid : Int} {group : List Rec} {o : Option SubjectSummary}
    (h : summarizeGroup gK bK mg mb sg wid group = .ok o) :
    o.isSome = true ↔
      (mg ≤ groupGoodCount gK bK sg group ∧ mb ≤ groupBadCount bK group) := by
  have hsh := summarizeGroup_ok_shape h
  subst hsh
  rw [buildSummary_map_isSome]
  exact Iff.rfl

/-- Inversion of the per-key summary extraction. -/
theorem groupSummary_some_inv {gK bK : List String} {mg mb : Nat} {sg : Bool}
    {df : List Rec} {k : Int} {s : SubjectSummary}
    (h : groupSummary gK bK mg mb sg df k = some s) :
    summarizeGroup gK bK mg mb sg k (df.filter fun r => decide (r.worker_id = k))
      = .ok (some s) := by
  unfold groupSummary at h
  cases hsum : summarizeGroup gK bK mg mb sg k
      (df.filter fun r => decide (r.worker_id = k)) with
  | error e =>
    rw [hsum] at h
    cases h
  | ok o =>
    rw [hsum] at h
    have h2 : o = some s := h
    rw [h2]

/-- The summary groupSummary extracts for a key carries that key. -/
theorem groupSummary_worker_id {gK bK : List String} {mg mb : Nat} {sg : Bool}
    {df : List Rec} {k : Int} {s : SubjectSummary}
    (h : groupSummary gK bK mg mb sg df k = some s) : s.worker_id = k :=
  (summarizeGroup_ok_some (groupSummary_some_inv h)).1

/-- Mapping worker ids over the extracted summaries filters the keys whose
group emits a summary. -/
theorem map_wid_filterMap {gs : Int → Option SubjectSummary}
    (hwid : ∀ k s, gs k = some s → s.worker_id = k) :
    ∀ keys : List Int, (keys.filterMap gs).map (fun s => s.worker_id) =
      keys.filter fun k => (gs k).isSome := by
  intro keys
  induction keys with
  | nil => rfl
  | cons k ks ih =>
    rw [List.filterMap_cons, List.filter_cons]
    cases hk : gs k with
    | none => simp [hk, ih]
    | some s => simp [hk, ih, hwid k s hk]

/-- Each summary a successful run emits comes from the group of some key,
summarized without raising and passing the thresholds. -/
theorem find_ok_mem_inv {df : List Rec} {gK bK : List String} {mg mb : Nat}
    {sg : Bool} {out : List SubjectSummary} {s : SubjectSummary}
    (h : find_eligible_subjects df gK bK mg mb sg = .ok out) (hs : s ∈ out) :
    ∃ k ∈ groupKeys df,
      summarizeGroup gK bK mg mb sg k (df.filter fun r => decide (r.worker_id = k))
        = .ok (some s) := by
  unfold find_eligible_subjects at h
  by_cases hdf : df.isEmpty = true
  · rw [if_pos hdf] at h
    have hout : out = [] := (Except.ok.inj h).symm
    subst hout
    cases hs
  · rw [if_neg hdf] at h
    cases hpg : processGroups gK bK mg mb sg df (groupKeys df) with
    | error e =>
      rw [hpg] at h
      cases h
    | ok l =>
      rw [hpg] at h
      have hout : out = sortTotalDesc l := (Except.ok.inj h).symm
      subst hout
      have hsl : s ∈ l := (sortTotalDesc_perm l).mem_iff.mp hs
      have hl := processGroups_ok hpg
      subst hl
      obtain ⟨k, hk, hgs⟩ := List.mem_filterMap.mp hsl
      exact ⟨k, hk, groupSummary_some_inv hgs⟩

/-- C6: find_eligible_subjects emits exactly one summary per worker group
meeting both thresholds and none for any other group: every emitted summary
satisfies the thresholds, the emitted worker ids are, up to the final sort,
exactly the group keys whose good and bad counts reach the minima, and no
worker id repeats; the empty input yields an empty list rather than an
error. -/
theorem claim_C6_threshold_selection (df : List Rec) (gK bK : List String)
    (mg mb : Nat) (sg : Bool) :
    find_eligible_subjects [] gK bK mg mb sg = .ok [] ∧
    ∀ out, find_eligible_subjects df gK bK mg mb sg = .ok out →
      (∀ s ∈ out, mg ≤ s.good_count ∧ mb ≤ s.bad_count) ∧
      (out.map fun s => s.worker_id).Perm
        ((groupKeys df).filter fun k =>
          decide (mg ≤ groupGoodCount gK bK sg (df.filter fun r => decide (r.worker_id = k)))
            && decide (mb ≤ groupBadCount bK (df.filter fun r => decide (r.worker_id = k)))) ∧
      (out.map fun s => s.worker_id).Nodup := by
  refine ⟨rfl, ?_⟩
  intro out hout
  refine ⟨?_, ?_⟩
  · intro s hs
    obtain ⟨k, hk, hsum⟩ := find_ok_mem_inv hout hs
    have h := summarizeGroup_ok_some hsum
    exact ⟨h.2.2.2.2.2.2.1, h.2.2.2.2.2.2.2⟩
  · unfold find_eligible_subjects at hout
    by_cases hdf : df.isEmpty = true
    · rw [if_pos hdf] at hout
      have hout2 : out = [] := (Except.ok.inj hout).symm
      subst hout2
      have hdf2 : df = [] := List.isEmpty_iff.mp hdf
      subst hdf2
      exact ⟨List.Perm.refl _, List.nodup_nil⟩
    · rw [if_neg hdf] at hout
      cases hpg : processGroups gK bK mg mb sg df (groupKeys df) with
      | error e =>
        rw [hpg] at hout
        cases hout
      | ok l =>
        rw [hpg] at hout
        have hout2 : out = sortTotalDesc l := (Except.ok.inj hout).symm
        subst hout2
        have hl := processGroups_ok hpg
        subst hl
        have hperm : ((sortTotalDesc ((groupKeys df).filterMap
            (groupSummary gK bK mg mb sg df))).map fun s => s.worker_id).Perm
            ((((groupKeys df).filterMap (groupSummary gK bK mg mb sg df))).map
              fun s => s.worker_id) :=
          (sortTotalDesc_perm _).map _
        have hmap := @map_wid_filterMap (groupSummary gK bK mg mb sg df)
          (fun k s hks => groupSummary_worker_id hks) (groupKeys df)
        have hfil : ((groupKeys df).filter fun k =>
            (groupSummary gK bK mg mb sg df k).isSome) =
            ((groupKeys df).filter fun k =>
              decide (mg ≤ groupGoodCount gK bK sg (df.filter fun r => decide (r.worker_id = k)))
                && decide (mb ≤ groupBadCount bK (df.filter fun r => decide (r.worker_id = k)))) := by
          apply List.filter_congr
          intro k hk
          obtain ⟨o, ho⟩ := processGroups_ok_forall hpg k hk
          have hgs : groupSummary gK bK mg mb sg df k = o := by
            unfold groupSummary
            rw [ho]
          rw [hgs]
          have hiff := summarizeGroup_isSome_iff ho
          rw [Bool.eq_iff_iff]
          simpa using hiff
        constructor
        · rw [← hfil]
          rw [hmap] at hperm
          exact hperm
        · have hnodup : (((groupKeys df).filter fun k =>
              (groupSummary gK bK mg mb sg df k).isSome)).Nodup :=
            (groupKeys_nodup df).filter _
          rw [← hmap] at hnodup
          exact hperm.nodup_iff.mpr hnodup

/-- C6 witness: the demo dataframe with thresholds one and one: the empty
input gives the empty list, and both demo workers are selected with
distinct ids. -/
theorem claim_C6_threshold_selection_witness :
    find_eligible_subjects [] ["g"] ["b"] 1 1 true = .ok [] ∧
    ((([⟨2, 1, 1, 9, ["b1"], ["b2"]⟩, ⟨1, 1, 1, 5, ["a1"], ["a2"]⟩] :
        List SubjectSummary).map fun s => s.worker_id)).Nodup := by
  have h := claim_C6_threshold_selection demoDf ["g"] ["b"] 1 1 true
  refine ⟨h.1, ?_⟩
  exact (h.2 [⟨2, 1, 1, 9, ["b1"], ["b2"]⟩, ⟨1, 1, 1, 5, ["a1"], ["a2"]⟩] rfl).2.2

/-- C9: the output is the stable descending sort by total_videos of the
summaries in group-iteration order: the result is descending by
total_videos (the group size) and, within each total value, preserves the
deterministic group order, so equal totals keep their relative positions. -/
theorem claim_C9_sorted_stable (df : List Rec) (gK bK : List String) (mg mb : Nat)
    (sg : Bool) (l : List SubjectSummary)
    (h : processGroups gK bK mg mb sg df (groupKeys df) = .ok l) :
    find_eligible_subjects df gK bK mg mb sg = .ok (sortTotalDesc l) ∧
    (sortTotalDesc l).Pairwise (fun a b => b.total_videos ≤ a.total_videos) ∧
    ∀ n, (sortTotalDesc l).filter (fun s => s.total_videos == n) =
      l.filter fun s => s.total_videos == n := by
  refine ⟨?_, sortTotalDesc_sorted l, fun n => sortTotalDesc_filter n l⟩
  unfold find_eligible_subjects
  by_cases hdf : df.isEmpty = true
  · rw [if_pos hdf]
    have hdf2 : df = [] := List.isEmpty_iff.mp hdf
    subst hdf2
    have hl : l = [] := (Except.ok.inj h).symm
    subst hl
    rfl
  · rw [if_neg hdf, h]
    rfl

/-- C9 witness: with a five-video worker listed before a nine-video worker
in group order, the output places the nine-video subject first. -/
theorem claim_C9_sorted_stable_witness :
    find_eligible_subjects demoDf ["g"] ["b"] 1 1 true =
      .ok [⟨2, 1, 1, 9, ["b1"], ["b2"]⟩, ⟨1, 1, 1, 5, ["a1"], ["a2"]⟩] := by
  have h := claim_C9_sorted_stable demoDf ["g"] ["b"] 1 1 true
    [⟨1, 1, 1, 5, ["a1"], ["a2"]⟩, ⟨2, 1, 1, 9, ["b1"], ["b2"]⟩] rfl
  exact h.1

/-- C10: every emitted summary has good_count equal to the length of
good_samples, bad_count equal to the length of bad_samples, both counts at
most total_videos, and in strict mode the good and bad row sets are
disjoint so the counts sum to at most total_videos. -/
theorem claim_C10_invariants (df : List Rec) (gK bK : List String) (mg mb : Nat)
    (sg : Bool) (out : List SubjectSummary)
    (h : find_eligible_subjects df gK bK mg mb sg = .ok out) :
    ∀ s ∈ out,
      s.good_count = s.good_samples.length ∧
      s.bad_count = s.bad_samples.length ∧
      s.good_count ≤ s.total_videos ∧
      s.bad_count ≤ s.total_videos ∧
      (sg = true → s.good_count + s.bad_count ≤ s.total_videos) := by
  intro s hs
  obtain ⟨k, hk, hsum⟩ := find_ok_mem_inv h hs
  have hspec := summarizeGroup_ok_some hsum
  obtain ⟨hwid, htot, hgood, hbad, hgs, hbs, hmg, hmb⟩ := hspec
  refine ⟨hgs.symm, hbs.symm, ?_, ?_, ?_⟩
  · rw [hgood, htot]
    unfold groupGoodCount
    split_ifs
    · exact List.countP_le_length _
    · exact List.countP_le_length _
  · rw [hbad, htot]
    exact List.countP_le_length _
  · intro hsg
    subst hsg
    rw [hgood, htot, hbad]
    unfold groupGoodCount groupBadCount
    rw [if_pos rfl]
    apply countP_add_le_length
    intro x hx
    obtain ⟨h1, h2⟩ := hx
    rw [h2] at h1
    simp at h1

/-- C10 witness: the invariants at the first summary of the demo run. -/
theorem claim_C10_invariants_witness :
    (1 : Nat) = (["b1"] : List String).length ∧ (1 : Nat) + 1 ≤ 9 := by
  have h := claim_C10_invariants demoDf ["g"] ["b"] 1 1 true
    [⟨2, 1, 1, 9, ["b1"], ["b2"]⟩, ⟨1, 1, 1, 5, ["a1"], ["a2"]⟩] rfl
    ⟨2, 1, 1, 9, ["b1"], ["b2"]⟩ (List.mem_cons_self _ _)
  exact ⟨h.1, h.2.2.2.2 rfl⟩

/-- C7 counterexample: a record whose labels value is not a sequence makes
the aggregation raise (a TypeError in the source) instead of being treated
as matching neither keyword list. -/
theorem claim_C7_counterexample :
    find_eligible_subjects [{ video_path := "v", worker_id := 1, labels := .pyOther }]
      ["g"] ["b"] 1 1 true = .error () := rfl

/-- C7 amended: a record with a non-sequence labels value makes the
aggregation raise a TypeError whenever the good keyword list is nonempty —
the keyword matcher has no sequence guard; only the label-prefix filter
stage guards against non-sequence labels, and every record surviving that
stage carries list-valued labels, which is why the pipeline never feeds the
aggregator such a record. -/
theorem claim_C7_nonsequence_raises (df : List Rec) (gK bK : List String)
    (mg mb : Nat) (sg : Bool) (r : Rec)
    (hr : r ∈ df) (hlab : r.labels = .pyOther) (hgK : gK ≠ []) :
    find_eligible_subjects df gK bK mg mb sg = .error () ∧
    ∀ (p : String) (df2 : List Rec) (r2 : Rec), r2 ∈ filter_by_label_prefix p df2 →
      ∃ ls, r2.labels = PyVal.pyList ls := by
  refine ⟨?_, fun p df2 r2 h2 => mem_filter_by_label_prefix h2⟩
  have hdf : df.isEmpty = false := by
    cases df
    · cases hr
    · rfl
  unfold find_eligible_subjects
  rw [if_neg (by simp [hdf])]
  have hk : r.worker_id ∈ groupKeys df := mem_groupKeys.mpr ⟨r, hr, rfl⟩
  have hrg : r ∈ df.filter fun r2 => decide (r2.worker_id = r.worker_id) :=
    List.mem_filter.mpr ⟨hr, by simp⟩
  have herr : has_label_match r.labels gK = .error () := by
    rw [hlab]
    exact has_label_match_pyOther hgK
  have hsum : summarizeGroup gK bK mg mb sg r.worker_id
      (df.filter fun r2 => decide (r2.worker_id = r.worker_id)) = .error () := by
    simp only [summarizeGroup]
    rw [mapExcept_error_of_mem hrg herr, error_bind]
  rw [processGroups_error_of_mem hk hsum]
  rfl

/-- C7 witness: the amended claim at a one-record dataframe with a
non-sequence labels value, and the list-valued guarantee at a concrete
record surviving the prefix filter. -/
theorem claim_C7_nonsequence_raises_witness :
    find_eligible_subjects [{ video_path := "v", worker_id := 1, labels := .pyOther }]
      ["g"] ["b"] 1 1 true = .error () ∧
    ∃ ls, ({ video_path := "s", worker_id := 1, labels := .pyList ["squats-x"] } : Rec).labels
      = PyVal.pyList ls := by
  have h := claim_C7_nonsequence_raises
    [{ video_path := "v", worker_id := 1, labels := .pyOther }] ["g"] ["b"] 1 1 true
    { video_path := "v", worker_id := 1, labels := .pyOther }
    (List.mem_cons_self _ _) rfl (by simp)
  refine ⟨h.1, ?_⟩
  have hfp : filter_by_label_prefix "squats"
      [{ video_path := "s", worker_id := 1, labels := .pyList ["squats-x"] }] =
      [{ video_path := "s", worker_id := 1, labels := .pyList ["squats-x"] }] := rfl
  exact h.2 "squats" [{ video_path := "s", worker_id := 1, labels := .pyList ["squats-x"] }]
    { video_path := "s", worker_id := 1, labels := .pyList ["squats-x"] }
    (hfp ▸ List.mem_cons_self _ _)

/-- C4 witness: the union law at a concrete tree with one loose file and
one readable archive. -/
theorem claim_C4_total_union_witness :
    (scan_dataset ["root/v.mp4"] [demoGoodArchive]).total_videos =
      (looseBasenames ["root/v.mp4"] ∪ archivesUnion [demoGoodArchive]).card :=
  (claim_C4_total_union ["root/v.mp4"] [demoGoodArchive]).1

/-- C8 witness: idempotence at a concrete one-row dataframe. -/
theorem claim_C8_exists_filter_idempotent_witness :
    filter_available_files ["v.mp4"] (filter_available_files ["v.mp4"]
      [{ video_path := "d/v.mp4", worker_id := 1, labels := .pyList ["g"] }]) =
    filter_available_files ["v.mp4"]
      [{ video_path := "d/v.mp4", worker_id := 1, labels := .pyList ["g"] }] :=
  claim_C8_exists_filter_idempotent ["v.mp4"]
    [{ video_path := "d/v.mp4", worker_id := 1, labels := .pyList ["g"] }]

end DataAnalyzer
